import Mathlib

set_option maxHeartbeats 1000000

/-!
Verification of the sparse top-n matrix-product kernel
(`sparse_dot_topn_source.cpp`).

The three C++ entry points are embedded as executable Lean functions over
lists.  Machine `int` indices become `Nat` (they are only ever used as
non-negative indices under the documented preconditions) except for the
`next` chain array, whose entries can hold the sentinels `-1` and `-2`
and is therefore `Int`-valued.  The `double` values become `Rat`: every
claim under check is about the order structure of the arithmetic, not
about rounding, and the C++ accumulation order is preserved exactly.
Out-of-bounds accesses (undefined behaviour in C++) are totalised with
`List.getD` defaults; all claims assume the documented CSR validity, under
which no out-of-bounds access happens.
-/

/-- Entry of the per-row candidate buffer: a column index and the
accumulated value, mirroring `struct candidate`. -/
structure candidate where
  index : ℕ
  value : ℚ
deriving DecidableEq

/-- The strict-weak order used by the C++ comparator
`candidate_cmp c_i c_j = c_i.value > c_j.value`, taken in its reflexive
form: `a` may precede `b` exactly when `¬ candidate_cmp b a`, i.e. when
`b.value ≤ a.value`.  A sequence is sorted for `std::sort` with
`candidate_cmp` precisely when it is `Sorted cmpGE`. -/
def cmpGE (a b : candidate) : Prop := b.value ≤ a.value

instance : DecidableRel cmpGE := fun a b => inferInstanceAs (Decidable (b.value ≤ a.value))

instance : IsTotal candidate cmpGE := ⟨fun a b => le_total b.value a.value⟩

instance : IsTrans candidate cmpGE := ⟨fun _ _ _ h1 h2 => le_trans h2 h1⟩

/-- Scratch state of the accumulation core: the value accumulator `sums`
(length `n_col`), the implicit linked list `next` over columns (length
`n_col`, sentinel `-1` for untouched, `-2` terminates the chain), the
chain head, and the chain length counter. -/
structure RowState where
  sums : List ℚ
  next : List ℤ
  head : ℤ
  length : ℕ
deriving DecidableEq

/-- The state all scratch arrays start in (and, by the reset discipline,
return to after every row): all sums zero, all chain entries `-1`. -/
def initState (n_col : ℕ) : RowState :=
  { sums := List.replicate n_col 0, next := List.replicate n_col (-1),
    head := -2, length := 0 }

/-- One multiply-accumulate step of the inner loop body for the pair
`e = (k, v*Bx[kk])`: `sums[k] += v*Bx[kk]`, and if `next[k] == -1` the
column is linked into the chain and the length counter bumped. -/
def evStep (st : RowState) (e : ℕ × ℚ) : RowState :=
  let st1 : RowState := { st with sums := st.sums.set e.1 (st.sums.getD e.1 0 + e.2) }
  if st1.next.getD e.1 0 = -1 then
    { st1 with next := st1.next.set e.1 st1.head, head := (e.1 : ℤ),
               length := st1.length + 1 }
  else st1

/-- The double loop over `jj` in `[Ap[i], Ap[i+1])` and `kk` in
`[Bp[Aj[jj]], Bp[Aj[jj]+1])` of the C++ accumulation phase for row `i`,
each step processing column `Bj[kk]` with increment `Ax[jj]*Bx[kk]`. -/
def rowAccum (Ap Aj : List ℕ) (Ax : List ℚ) (Bp Bj : List ℕ) (Bx : List ℚ)
    (i : ℕ) (st0 : RowState) : RowState :=
  (List.range' (Ap.getD i 0) (Ap.getD (i+1) 0 - Ap.getD i 0)).foldl (fun st jj =>
    (List.range' (Bp.getD (Aj.getD jj 0) 0)
        (Bp.getD (Aj.getD jj 0 + 1) 0 - Bp.getD (Aj.getD jj 0) 0)).foldl
      (fun st' kk => evStep st' (Bj.getD kk 0, Ax.getD jj 0 * Bx.getD kk 0)) st) st0

/-- The finalisation loop of the C++ core, run `length` times: look at the
chain head, emit a candidate when its accumulated sum is strictly above
`lb`, then advance the head along the chain and reset the visited
column's `next` entry to `-1` and its sum to `0`. -/
def finalizeStep (lb : ℚ) : ℕ → RowState → List candidate → RowState × List candidate
  | 0, st, acc => (st, acc)
  | n+1, st, acc =>
    let h := st.head.toNat
    let s := st.sums.getD h 0
    let acc' := if lb < s then acc ++ [⟨h, s⟩] else acc
    finalizeStep lb n
      { st with head := st.next.getD h 0,
                next := st.next.set h (-1),
                sums := st.sums.set h 0 } acc'

/-- One full row of the accumulation core: reset `head`/`length`, run the
multiply-accumulate double loop, then walk and clear the chain collecting
the above-threshold candidates in chain order. -/
def processRow (Ap Aj : List ℕ) (Ax : List ℚ) (Bp Bj : List ℕ) (Bx : List ℚ)
    (lb : ℚ) (i : ℕ) (st : RowState) : RowState × List candidate :=
  let st2 := rowAccum Ap Aj Ax Bp Bj Bx i { st with head := -2, length := 0 }
  finalizeStep lb st2.length st2 []

/-- The top-n selection of the C++ core.  When more than `ntop` candidates
exist the code partially sorts the first `ntop` positions descending by
value and truncates; otherwise it fully sorts.  Both branches produce the
first `ntop` entries of a full sort for the comparator order, which is
what this function computes (using insertion sort as the concrete
comparator-consistent sorting algorithm; tie order among equal values is
unspecified in the C++ and immaterial to every property proved below). -/
def selectTopn (ntop : ℕ) (cands : List candidate) : List candidate :=
  (List.insertionSort cmpGE cands).take ntop

/-- Output CSR triple: row pointers `Cp`, column indices `Cj`, values
`Cx`.  The running nonzero counter `nnz` of the C++ is `Cj.length`. -/
structure CSROut where
  Cp : List ℕ
  Cj : List ℕ
  Cx : List ℚ
deriving DecidableEq

/-- Processing of one row of `sparse_dot_topn_source`: accumulate and
finalise the row, select the top `ntop` candidates, append their columns
and values to the output, and append the new `nnz` as the next row
pointer. -/
def topnStep (Ap Aj : List ℕ) (Ax : List ℚ) (Bp Bj : List ℕ) (Bx : List ℚ)
    (ntop : ℕ) (lb : ℚ) (acc : RowState × CSROut) (i : ℕ) : RowState × CSROut :=
  let pr := processRow Ap Aj Ax Bp Bj Bx lb i acc.1
  let sel := selectTopn ntop pr.2
  (pr.1,
   { Cp := acc.2.Cp ++ [acc.2.Cj.length + sel.length],
     Cj := acc.2.Cj ++ sel.map candidate.index,
     Cx := acc.2.Cx ++ sel.map candidate.value })

/-- State of the row loop of `sparse_dot_topn_source` after its first `r`
iterations, starting from fresh scratch arrays and the output holding
only `Cp[0] = 0`. -/
def topnFold (n_col : ℕ) (Ap Aj : List ℕ) (Ax : List ℚ) (Bp Bj : List ℕ)
    (Bx : List ℚ) (ntop : ℕ) (lb : ℚ) (r : ℕ) : RowState × CSROut :=
  (List.range r).foldl (topnStep Ap Aj Ax Bp Bj Bx ntop lb)
    (initState n_col, { Cp := [0], Cj := [], Cx := [] })

/-- Embedding of the C++ entry point `sparse_dot_topn_source`: the output
CSR triple after processing all `n_row` rows. -/
def sparse_dot_topn_source (n_row n_col : ℕ) (Ap Aj : List ℕ) (Ax : List ℚ)
    (Bp Bj : List ℕ) (Bx : List ℚ) (ntop : ℕ) (lb : ℚ) : CSROut :=
  (topnFold n_col Ap Aj Ax Bp Bj Bx ntop lb n_row).2

/-- Processing of one row of `sparse_dot_plus_minmax_topn_source`:
identical to `topnStep`, except that the running maximum `minmax_ntop` is
additionally updated with the chain length of the row (the C++ updates it
between accumulation and finalisation; finalisation does not modify the
length counter, so reading it afterwards is the same value). -/
def plusStep (Ap Aj : List ℕ) (Ax : List ℚ) (Bp Bj : List ℕ) (Bx : List ℚ)
    (ntop : ℕ) (lb : ℚ) (acc : (RowState × CSROut) × ℕ) (i : ℕ) :
    (RowState × CSROut) × ℕ :=
  let pr := processRow Ap Aj Ax Bp Bj Bx lb i acc.1.1
  let mm := if pr.1.length > acc.2 then pr.1.length else acc.2
  let sel := selectTopn ntop pr.2
  ((pr.1,
    { Cp := acc.1.2.Cp ++ [acc.1.2.Cj.length + sel.length],
      Cj := acc.1.2.Cj ++ sel.map candidate.index,
      Cx := acc.1.2.Cx ++ sel.map candidate.value }), mm)

/-- State of the row loop of `sparse_dot_plus_minmax_topn_source` after
its first `r` iterations. -/
def plusFold (n_col : ℕ) (Ap Aj : List ℕ) (Ax : List ℚ) (Bp Bj : List ℕ)
    (Bx : List ℚ) (ntop : ℕ) (lb : ℚ) (r : ℕ) : (RowState × CSROut) × ℕ :=
  (List.range r).foldl (plusStep Ap Aj Ax Bp Bj Bx ntop lb)
    ((initState n_col, { Cp := [0], Cj := [], Cx := [] }), 0)

/-- Embedding of the C++ entry point `sparse_dot_plus_minmax_topn_source`:
the output CSR triple together with the stored `minmax_ntop`. -/
def sparse_dot_plus_minmax_topn_source (n_row n_col : ℕ) (Ap Aj : List ℕ)
    (Ax : List ℚ) (Bp Bj : List ℕ) (Bx : List ℚ) (ntop : ℕ) (lb : ℚ) :
    CSROut × ℕ :=
  let f := plusFold n_col Ap Aj Ax Bp Bj Bx ntop lb n_row
  (f.1.2, f.2)

/-- Processing of one row of `sparse_dot_only_minmax_topn_source`: walk
the same double loop over the sparsity patterns, count a column the first
time `unmarked[k]` is found true and mark it, then fold the row count into
the running maximum.  Note that, exactly as in the C++ source, the
`unmarked` array is never reset between rows. -/
def onlyStep (Ap Aj Bp Bj : List ℕ) (acc : List Bool × ℕ) (i : ℕ) : List Bool × ℕ :=
  let p := (List.range' (Ap.getD i 0) (Ap.getD (i+1) 0 - Ap.getD i 0)).foldl
    (fun (p : List Bool × ℕ) jj =>
      (List.range' (Bp.getD (Aj.getD jj 0) 0)
          (Bp.getD (Aj.getD jj 0 + 1) 0 - Bp.getD (Aj.getD jj 0) 0)).foldl
        (fun (q : List Bool × ℕ) kk =>
          if q.1.getD (Bj.getD kk 0) false then
            (q.1.set (Bj.getD kk 0) false, q.2 + 1)
          else q) p)
    (acc.1, 0)
  (p.1, if p.2 > acc.2 then p.2 else acc.2)

/-- Embedding of the C++ entry point `sparse_dot_only_minmax_topn_source`:
the stored `minmax_ntop`. -/
def sparse_dot_only_minmax_topn_source (n_row n_col : ℕ) (Ap Aj Bp Bj : List ℕ) : ℕ :=
  ((List.range n_row).foldl (onlyStep Ap Aj Bp Bj) (List.replicate n_col true, 0)).2

/-!  Abstract descriptions of one row's work, used to state and prove the
behavioural claims.  They are read off the same source loops: `rowEvents`
is the flat sequence of (column, increment) pairs the double loop visits
for row `i`, in visit order. -/

/-- The flat sequence of multiply-accumulate events of row `i`: for each
`jj` in A's row range and each `kk` in the B-row range of `Aj[jj]`, the
pair of the result column `Bj[kk]` and the increment `Ax[jj]*Bx[kk]`. -/
def rowEvents (Ap Aj : List ℕ) (Ax : List ℚ) (Bp Bj : List ℕ) (Bx : List ℚ)
    (i : ℕ) : List (ℕ × ℚ) :=
  (List.range' (Ap.getD i 0) (Ap.getD (i+1) 0 - Ap.getD i 0)).flatMap (fun jj =>
    (List.range' (Bp.getD (Aj.getD jj 0) 0)
        (Bp.getD (Aj.getD jj 0 + 1) 0 - Bp.getD (Aj.getD jj 0) 0)).map
      (fun kk => (Bj.getD kk 0, Ax.getD jj 0 * Bx.getD kk 0)))

/-- Fold step recording the first touch of each column, most recent
first: exactly the evolution of the implicit chain. -/
def touchFold (acc : List ℕ) (e : ℕ × ℚ) : List ℕ :=
  if e.1 ∈ acc then acc else e.1 :: acc

/-- The distinct columns touched by an event sequence, in
most-recently-first-touched-first order: the abstract content of the
implicit chain after processing the events. -/
def touchedCols (es : List (ℕ × ℚ)) : List ℕ :=
  es.foldl touchFold []

/-- Total increment an event sequence contributes to column `k`: the
value the accumulator holds for `k` after the events are processed. -/
def colSum (es : List (ℕ × ℚ)) (k : ℕ) : ℚ :=
  ((es.filter (fun e => e.1 == k)).map Prod.snd).sum

/-- Distinct columns touched during row `i`, i.e. the columns `k` for
which some entry `(i,j)` of A meets an entry `(j,k)` of B. -/
def rowTouched (Ap Aj : List ℕ) (Ax : List ℚ) (Bp Bj : List ℕ) (Bx : List ℚ)
    (i : ℕ) : List ℕ :=
  touchedCols (rowEvents Ap Aj Ax Bp Bj Bx i)

/-- The exact dot product `Σ A[i,j]·B[j,k]` of row `i` of A with column
`k` of B, as the code accumulates it: the sum of `Ax[jj]*Bx[kk]` over all
structural entry pairs `(jj, kk)` of row `i` hitting column `k`. -/
def rowDot (Ap Aj : List ℕ) (Ax : List ℚ) (Bp Bj : List ℕ) (Bx : List ℚ)
    (i k : ℕ) : ℚ :=
  colSum (rowEvents Ap Aj Ax Bp Bj Bx i) k

/-- Candidates harvested from a chain `tl` with accumulated values `f`:
one candidate per chain column whose value is strictly above `lb`, in
chain order. -/
def candsOf (lb : ℚ) (f : ℕ → ℚ) (tl : List ℕ) : List candidate :=
  tl.filterMap (fun k => if lb < f k then some ⟨k, f k⟩ else none)

/-- The candidate list of row `i`: the touched columns whose dot product
is strictly above `lb`, paired with their dot products. -/
def rowCandidates (Ap Aj : List ℕ) (Ax : List ℚ) (Bp Bj : List ℕ) (Bx : List ℚ)
    (lb : ℚ) (i : ℕ) : List candidate :=
  candsOf lb (rowDot Ap Aj Ax Bp Bj Bx i) (rowTouched Ap Aj Ax Bp Bj Bx i)

/-- The selected output of row `i`: top `ntop` of the row's candidates. -/
def rowSelected (Ap Aj : List ℕ) (Ax : List ℚ) (Bp Bj : List ℕ) (Bx : List ℚ)
    (ntop : ℕ) (lb : ℚ) (i : ℕ) : List candidate :=
  selectTopn ntop (rowCandidates Ap Aj Ax Bp Bj Bx lb i)

/-- Validity of a CSR sparsity pattern with `nr` rows and `nc` columns,
as assumed by the kernel: the row-pointer array has length `nr+1`, starts
at `0`, is non-decreasing (stated on adjacent entries), its last entry is
within the index array, and all column indices are below `nc`. -/
def CSRok (nr nc : ℕ) (p idx : List ℕ) : Prop :=
  p.length = nr + 1 ∧
  p.getD 0 0 = 0 ∧
  (∀ t, t < nr → p.getD t 0 ≤ p.getD (t+1) 0) ∧
  p.getD nr 0 ≤ idx.length ∧
  (∀ x ∈ idx, x < nc)

instance (nr nc : ℕ) (p idx : List ℕ) : Decidable (CSRok nr nc p idx) :=
  inferInstanceAs (Decidable (_ = _ ∧ _ = _ ∧ (∀ t, t < nr → _ ≤ _) ∧ _ ≤ _ ∧ ∀ x ∈ idx, x < nc))

/-- Pairs `(column, value)` stored in output row `i`: the slice of
`Cj`/`Cx` between `Cp[i]` and `Cp[i+1]`. -/
def outRowPairs (out : CSROut) (i : ℕ) : List (ℕ × ℚ) :=
  ((out.Cj.zip out.Cx).drop (out.Cp.getD i 0)).take
    (out.Cp.getD (i+1) 0 - out.Cp.getD i 0)

/-- Values stored in output row `i`: the slice of `Cx` between `Cp[i]`
and `Cp[i+1]`. -/
def outRowValues (out : CSROut) (i : ℕ) : List ℚ :=
  (out.Cx.drop (out.Cp.getD i 0)).take (out.Cp.getD (i+1) 0 - out.Cp.getD i 0)

/-! ### Basic list access helpers -/

theorem getD_set_ne {α : Type} (l : List α) (k k' : ℕ) (x d : α) (h : k ≠ k') :
    (l.set k x).getD k' d = l.getD k' d := by
  simp [List.getD_eq_getElem?_getD, List.getElem?_set_ne h]

theorem getD_set_self {α : Type} (l : List α) (k : ℕ) (x d : α) (h : k < l.length) :
    (l.set k x).getD k d = x := by
  simp [List.getD_eq_getElem?_getD, List.getElem?_set_self, h]

theorem getD_replicate {α : Type} (n k : ℕ) (a d : α) (h : k < n) :
    (List.replicate n a).getD k d = a := by
  simp [List.getD_eq_getElem?_getD, List.getElem?_replicate, h]

theorem getD_replicate_default {α : Type} (n k : ℕ) (a : α) :
    (List.replicate n a).getD k a = a := by
  rcases Nat.lt_or_ge k n with h | h
  · simp [List.getD_eq_getElem?_getD, List.getElem?_replicate, h]
  · simp [List.getD_eq_getElem?_getD,
      List.getElem?_eq_none (by simpa using h : (List.replicate n a).length ≤ k)]

theorem getD_of_lt {α : Type} (l : List α) (k : ℕ) (d : α) (h : k < l.length) :
    l.getD k d = l[k] := by
  simp [List.getD_eq_getElem?_getD, List.getElem?_eq_getElem h]

theorem getD_mem {α : Type} (l : List α) (k : ℕ) (d : α) (h : k < l.length) :
    l.getD k d ∈ l := by
  rw [getD_of_lt l k d h]; exact List.getElem_mem h

/-- Pointwise description forces a list to be a `replicate`. -/
theorem eq_replicate_of_getD {α : Type} (l : List α) (n : ℕ) (a : α)
    (hlen : l.length = n) (h : ∀ k, k < n → l.getD k a = a) :
    l = List.replicate n a := by
  refine List.eq_replicate_iff.2 ⟨hlen, fun b hb => ?_⟩
  obtain ⟨i, hi, rfl⟩ := List.mem_iff_getElem.1 hb
  rw [← getD_of_lt l i a hi]
  exact h i (hlen ▸ hi)

/-! ### The touched-column abstraction of the implicit chain -/

theorem touchedCols_append (es : List (ℕ × ℚ)) (e : ℕ × ℚ) :
    touchedCols (es ++ [e]) = touchFold (touchedCols es) e := by
  simp [touchedCols, List.foldl_append]

theorem mem_touchFold_foldl (es : List (ℕ × ℚ)) (acc : List ℕ) (k : ℕ) :
    k ∈ es.foldl touchFold acc ↔ k ∈ acc ∨ ∃ e ∈ es, e.1 = k := by
  induction es generalizing acc with
  | nil => simp
  | cons e es ih =>
    rw [List.foldl_cons, ih]
    unfold touchFold
    by_cases hm : e.1 ∈ acc
    · simp only [hm, if_pos]
      constructor
      · rintro (h | ⟨e', he', rfl⟩)
        · exact Or.inl h
        · exact Or.inr ⟨e', List.mem_cons_of_mem _ he', rfl⟩
      · rintro (h | ⟨e', he', rfl⟩)
        · exact Or.inl h
        · rcases List.mem_cons.1 he' with rfl | he'
          · exact Or.inl hm
          · exact Or.inr ⟨e', he', rfl⟩
    · simp only [hm, if_neg, not_false_iff]
      constructor
      · rintro (h | ⟨e', he', rfl⟩)
        · rcases List.mem_cons.1 h with rfl | h
          · exact Or.inr ⟨e, List.mem_cons_self _ _, rfl⟩
          · exact Or.inl h
        · exact Or.inr ⟨e', List.mem_cons_of_mem _ he', rfl⟩
      · rintro (h | ⟨e', he', rfl⟩)
        · exact Or.inl (List.mem_cons_of_mem _ h)
        · rcases List.mem_cons.1 he' with rfl | he'
          · exact Or.inl (List.mem_cons_self _ _)
          · exact Or.inr ⟨e', he', rfl⟩

theorem mem_touchedCols (es : List (ℕ × ℚ)) (k : ℕ) :
    k ∈ touchedCols es ↔ ∃ e ∈ es, e.1 = k := by
  rw [touchedCols, mem_touchFold_foldl]; simp

theorem nodup_touchFold_foldl (es : List (ℕ × ℚ)) (acc : List ℕ) (h : acc.Nodup) :
    (es.foldl touchFold acc).Nodup := by
  induction es generalizing acc with
  | nil => exact h
  | cons e es ih =>
    rw [List.foldl_cons]
    refine ih _ ?_
    unfold touchFold
    by_cases hm : e.1 ∈ acc
    · simpa [hm] using h
    · rw [if_neg hm]
      exact List.nodup_cons.2 ⟨hm, h⟩

theorem touchedCols_nodup (es : List (ℕ × ℚ)) : (touchedCols es).Nodup :=
  nodup_touchFold_foldl es [] List.nodup_nil

theorem colSum_nil (k : ℕ) : colSum [] k = 0 := rfl

theorem colSum_append (es : List (ℕ × ℚ)) (e : ℕ × ℚ) (k : ℕ) :
    colSum (es ++ [e]) k = colSum es k + (if e.1 = k then e.2 else 0) := by
  unfold colSum
  rw [List.filter_append, List.map_append, List.sum_append]
  by_cases h : e.1 = k <;> simp [h]

theorem colSum_eq_zero (es : List (ℕ × ℚ)) (k : ℕ) (h : ∀ e ∈ es, e.1 ≠ k) :
    colSum es k = 0 := by
  unfold colSum
  rw [List.filter_eq_nil_iff.2 (by intro e he; simpa using h e he)]
  rfl

/-! ### The chain representation predicate -/

/-- `chainRepr next h tl` expresses that starting from head value `h` and
repeatedly following the `next` array one traverses exactly the columns
of `tl` and then reaches the terminator `-2`. -/
def chainRepr (next : List ℤ) : ℤ → List ℕ → Prop
  | h, [] => h = -2
  | h, k :: tl => h = (k : ℤ) ∧ chainRepr next (next.getD k 0) tl

theorem chainRepr_ne_neg_one (next : List ℤ) (h : ℤ) (tl : List ℕ)
    (hr : chainRepr next h tl) : ∀ k ∈ tl, next.getD k 0 ≠ -1 := by
  induction tl generalizing h with
  | nil => intro k hk; cases hk
  | cons k0 tl ih =>
    obtain ⟨_, hrest⟩ := hr
    intro k hk
    rcases List.mem_cons.1 hk with rfl | hk
    · cases tl with
      | nil => rw [hrest]; decide
      | cons k1 _ =>
        obtain ⟨hh, _⟩ := hrest
        rw [hh]; omega
    · exact ih _ hrest k hk

theorem chainRepr_set_of_not_mem (next : List ℤ) (h : ℤ) (tl : List ℕ)
    (k : ℕ) (x : ℤ) (hk : k ∉ tl) :
    chainRepr (next.set k x) h tl ↔ chainRepr next h tl := by
  induction tl generalizing h with
  | nil => rfl
  | cons k0 tl ih =>
    have hne : k ≠ k0 := fun hkk => hk (hkk ▸ List.mem_cons_self _ _)
    have hk' : k ∉ tl := fun hkk => hk (List.mem_cons_of_mem _ hkk)
    unfold chainRepr
    rw [getD_set_ne next k k0 x 0 hne, ih _ hk']

/-! ### The accumulation invariant -/

/-- Invariant of the accumulation phase: after processing the event
sequence `es` from clean scratch arrays, the accumulator holds the
per-column event sums, the chain represents exactly the touched columns
(most recently touched first), untouched in-range columns still carry the
sentinel `-1`, and the length counter equals the number of touched
columns. -/
structure AccInv (n_col : ℕ) (es : List (ℕ × ℚ)) (st : RowState) : Prop where
  cols_lt : ∀ e ∈ es, e.1 < n_col
  sums_len : st.sums.length = n_col
  next_len : st.next.length = n_col
  sums_eq : ∀ k, st.sums.getD k 0 = colSum es k
  repr_ok : chainRepr st.next st.head (touchedCols es)
  clean : ∀ k, k < n_col → k ∉ touchedCols es → st.next.getD k 0 = -1
  len_eq : st.length = (touchedCols es).length

theorem accInv_clean_start (n_col : ℕ) (st : RowState)
    (hs : st.sums = List.replicate n_col 0)
    (hn : st.next = List.replicate n_col (-1)) :
    AccInv n_col [] { st with head := -2, length := 0 } := by
  constructor
  · intro e he; cases he
  · simp [hs]
  · simp [hn]
  · intro k; rw [colSum_nil]; simp only [hs]; exact getD_replicate_default n_col k 0
  · exact rfl
  · intro k hk _; simp only [hn]; exact getD_replicate n_col k (-1) 0 hk
  · rfl

theorem accInv_step (n_col : ℕ) (es : List (ℕ × ℚ)) (e : ℕ × ℚ) (st : RowState)
    (he : e.1 < n_col) (h : AccInv n_col es st) :
    AccInv n_col (es ++ [e]) (evStep st e) := by
  obtain ⟨k, w⟩ := e
  have hk_sums : k < st.sums.length := h.sums_len ▸ he
  have hk_next : k < st.next.length := h.next_len ▸ he
  have hcols : ∀ e' ∈ es ++ [(k, w)], e'.1 < n_col := by
    intro e' he'
    rcases List.mem_append.1 he' with h' | h'
    · exact h.cols_lt e' h'
    · rcases List.mem_singleton.1 h' with rfl; exact he
  have hsums_eq : ∀ k', (st.sums.set k (st.sums.getD k 0 + w)).getD k' 0 =
      colSum (es ++ [(k, w)]) k' := by
    intro k'
    rw [colSum_append]
    by_cases hkk : k = k'
    · subst hkk
      rw [getD_set_self _ _ _ _ hk_sums, h.sums_eq k, if_pos rfl]
    · rw [getD_set_ne _ _ _ _ _ hkk, h.sums_eq k', if_neg hkk, add_zero]
  by_cases hlink : st.next.getD k 0 = -1
  -- the column is untouched so far: it gets linked into the chain
  · have hnotmem : k ∉ touchedCols es := fun hmem =>
      chainRepr_ne_neg_one st.next st.head (touchedCols es) h.repr_ok k hmem hlink
    have htc : touchedCols (es ++ [(k, w)]) = k :: touchedCols es := by
      rw [touchedCols_append]; unfold touchFold; rw [if_neg hnotmem]
    have hstep : evStep st (k, w) =
        { sums := st.sums.set k (st.sums.getD k 0 + w),
          next := st.next.set k st.head, head := (k : ℤ),
          length := st.length + 1 } := by
      simp only [evStep, hlink, if_pos]
    rw [hstep]
    constructor
    · exact hcols
    · simpa using h.sums_len
    · simpa using h.next_len
    · exact hsums_eq
    · rw [htc]
      refine ⟨rfl, ?_⟩
      rw [getD_set_self _ _ _ _ hk_next]
      exact (chainRepr_set_of_not_mem _ _ _ _ _ hnotmem).2 h.repr_ok
    · intro k' hk' hk'mem
      rw [htc] at hk'mem
      have hne : k ≠ k' := fun hkk => hk'mem (hkk ▸ List.mem_cons_self _ _)
      have : k' ∉ touchedCols es := fun hmem => hk'mem (List.mem_cons_of_mem _ hmem)
      rw [getD_set_ne _ _ _ _ _ hne]
      exact h.clean k' hk' this
    · rw [htc]; simp [h.len_eq]
  -- the column is already in the chain: only the accumulator changes
  · have hmem : k ∈ touchedCols es := by
      by_contra hnm
      exact hlink (h.clean k he hnm)
    have htc : touchedCols (es ++ [(k, w)]) = touchedCols es := by
      rw [touchedCols_append]; unfold touchFold; rw [if_pos hmem]
    have hstep : evStep st (k, w) =
        { st with sums := st.sums.set k (st.sums.getD k 0 + w) } := by
      simp only [evStep, hlink, if_neg, ite_false]
    rw [hstep]
    constructor
    · exact hcols
    · simpa using h.sums_len
    · exact h.next_len
    · exact hsums_eq
    · rw [htc]; exact h.repr_ok
    · rw [htc]; exact h.clean
    · rw [htc]; exact h.len_eq

theorem accInv_foldl (n_col : ℕ) (es0 es : List (ℕ × ℚ)) (st : RowState)
    (h : AccInv n_col es0 st) (hr : ∀ e ∈ es, e.1 < n_col) :
    AccInv n_col (es0 ++ es) (es.foldl evStep st) := by
  induction es generalizing es0 st with
  | nil => simpa using h
  | cons e es ih =>
    rw [List.foldl_cons]
    have step := accInv_step n_col es0 e st (hr e (List.mem_cons_self _ _)) h
    have := ih (es0 ++ [e]) (evStep st e) step
      (fun e' he' => hr e' (List.mem_cons_of_mem _ he'))
    simpa [List.append_assoc] using this

/-! ### From the nested loops to the flat event sequence -/

theorem foldl_flatMap_eq {α β γ : Type} (l : List α) (g : α → List β)
    (f : γ → β → γ) (init : γ) :
    (l.flatMap g).foldl f init = l.foldl (fun acc x => (g x).foldl f acc) init := by
  induction l generalizing init with
  | nil => rfl
  | cons a l ih => rw [List.flatMap_cons, List.foldl_append, List.foldl_cons, ih]

theorem rowAccum_eq_events (Ap Aj : List ℕ) (Ax : List ℚ) (Bp Bj : List ℕ)
    (Bx : List ℚ) (i : ℕ) (st : RowState) :
    rowAccum Ap Aj Ax Bp Bj Bx i st =
      (rowEvents Ap Aj Ax Bp Bj Bx i).foldl evStep st := by
  unfold rowAccum rowEvents
  rw [foldl_flatMap_eq]
  simp only [List.foldl_map]

/-! ### The finalisation walk -/

theorem getD_default_irrel {α : Type} (l : List α) (k : ℕ) (d d' : α)
    (h : k < l.length) : l.getD k d = l.getD k d' := by
  rw [getD_of_lt l k d h, getD_of_lt l k d' h]

theorem candsOf_cons (lb : ℚ) (f : ℕ → ℚ) (k0 : ℕ) (tl : List ℕ) :
    candsOf lb f (k0 :: tl) =
      (if lb < f k0 then [⟨k0, f k0⟩] else []) ++ candsOf lb f tl := by
  unfold candsOf
  rw [List.filterMap_cons]
  by_cases h : lb < f k0 <;> simp [h]

theorem candsOf_congr (lb : ℚ) (f g : ℕ → ℚ) (tl : List ℕ)
    (h : ∀ k ∈ tl, f k = g k) : candsOf lb f tl = candsOf lb g tl := by
  unfold candsOf
  exact List.filterMap_congr (fun k hk => by rw [h k hk])

theorem finalizeStep_spec (lb : ℚ) (n_col : ℕ) (tl : List ℕ) :
    ∀ (st : RowState) (acc : List candidate),
    chainRepr st.next st.head tl → tl.Nodup → (∀ k ∈ tl, k < n_col) →
    st.sums.length = n_col → st.next.length = n_col →
    (∀ k, k < n_col → k ∉ tl → st.next.getD k 0 = -1) →
    (∀ k, k < n_col → k ∉ tl → st.sums.getD k 0 = 0) →
    finalizeStep lb tl.length st acc =
      ({ sums := List.replicate n_col 0, next := List.replicate n_col (-1),
         head := -2, length := st.length },
       acc ++ candsOf lb (fun k => st.sums.getD k 0) tl) := by
  induction tl with
  | nil =>
    intro st acc hrepr _ _ hslen hnlen hcln hcls
    obtain ⟨s, nx, hd, ln⟩ := st
    have hs : s = List.replicate n_col 0 := by
      refine eq_replicate_of_getD s n_col 0 hslen (fun k hk => ?_)
      exact hcls k hk (by simp)
    have hn : nx = List.replicate n_col (-1) := by
      refine eq_replicate_of_getD nx n_col (-1) hnlen (fun k hk => ?_)
      rw [getD_default_irrel nx k (-1) 0 (hnlen ▸ hk)]
      exact hcln k hk (by simp)
    have hhd : hd = -2 := hrepr
    simp [finalizeStep, hs, hn, hhd, candsOf]
  | cons k0 tl ih =>
    intro st acc hrepr hnd hlt hslen hnlen hcln hcls
    have hk0 : k0 < n_col := hlt k0 (List.mem_cons_self _ _)
    have hk0s : k0 < st.sums.length := hslen ▸ hk0
    have hk0n : k0 < st.next.length := hnlen ▸ hk0
    have hk0tl : k0 ∉ tl := (List.nodup_cons.1 hnd).1
    have hh : st.head.toNat = k0 := by rw [hrepr.1]; exact Int.toNat_natCast k0
    rw [List.length_cons, finalizeStep, hh]
    have hrec := ih
      { st with head := st.next.getD k0 0,
                next := st.next.set k0 (-1),
                sums := st.sums.set k0 0 }
      (if lb < st.sums.getD k0 0 then acc ++ [⟨k0, st.sums.getD k0 0⟩] else acc)
      (by
        simp only
        exact (chainRepr_set_of_not_mem st.next _ tl k0 (-1) hk0tl).2 hrepr.2)
      (List.nodup_cons.1 hnd).2
      (fun k hk => hlt k (List.mem_cons_of_mem _ hk))
      (by simpa using hslen)
      (by simpa using hnlen)
      (by
        intro k hk hktl
        by_cases hkk : k = k0
        · subst hkk
          simp only
          exact getD_set_self st.next k (-1) 0 hk0n
        · simp only
          rw [getD_set_ne st.next k0 k (-1) 0 (fun hkk' => hkk hkk'.symm)]
          exact hcln k hk (by simp [hkk, hktl])
      )
      (by
        intro k hk hktl
        by_cases hkk : k = k0
        · subst hkk
          simp only
          exact getD_set_self st.sums k 0 0 hk0s
        · simp only
          rw [getD_set_ne st.sums k0 k 0 0 (fun hkk' => hkk hkk'.symm)]
          exact hcls k hk (by simp [hkk, hktl])
      )
    rw [hrec]
    refine congrArg _ ?_
    rw [candsOf_cons]
    have hcongr : candsOf lb
        (fun k => (st.sums.set k0 0).getD k 0) tl =
        candsOf lb (fun k => st.sums.getD k 0) tl := by
      refine candsOf_congr lb _ _ tl (fun k hk => ?_)
      rw [getD_set_ne st.sums k0 k 0 0 (fun hkk => hk0tl (hkk ▸ hk))]
    rw [hcongr]
    by_cases hcs : lb < st.sums.getD k0 0
    · simp only [if_pos hcs, List.append_assoc, List.singleton_append]
    · simp only [if_neg hcs, List.nil_append]

/-! ### One full row from a clean state -/

theorem processRow_spec (n_col : ℕ) (Ap Aj : List ℕ) (Ax : List ℚ) (Bp Bj : List ℕ)
    (Bx : List ℚ) (lb : ℚ) (i : ℕ) (st : RowState)
    (hs : st.sums = List.replicate n_col 0)
    (hn : st.next = List.replicate n_col (-1))
    (hr : ∀ e ∈ rowEvents Ap Aj Ax Bp Bj Bx i, e.1 < n_col) :
    processRow Ap Aj Ax Bp Bj Bx lb i st =
      ({ sums := List.replicate n_col 0, next := List.replicate n_col (-1),
         head := -2, length := (rowTouched Ap Aj Ax Bp Bj Bx i).length },
       rowCandidates Ap Aj Ax Bp Bj Bx lb i) := by
  unfold processRow
  rw [rowAccum_eq_events]
  have hinv0 := accInv_clean_start n_col st hs hn
  have hinv := accInv_foldl n_col [] (rowEvents Ap Aj Ax Bp Bj Bx i) _ hinv0 hr
  rw [List.nil_append] at hinv
  have hnd := touchedCols_nodup (rowEvents Ap Aj Ax Bp Bj Bx i)
  have hlt : ∀ k ∈ touchedCols (rowEvents Ap Aj Ax Bp Bj Bx i), k < n_col := by
    intro k hk
    obtain ⟨e, he, rfl⟩ := (mem_touchedCols _ k).1 hk
    exact hr e he
  have hcls : ∀ k, k < n_col →
      k ∉ touchedCols (rowEvents Ap Aj Ax Bp Bj Bx i) →
      ((rowEvents Ap Aj Ax Bp Bj Bx i).foldl evStep
        { st with head := -2, length := 0 }).sums.getD k 0 = 0 := by
    intro k hk hkm
    rw [hinv.sums_eq k]
    refine colSum_eq_zero _ k (fun e he hek => hkm ?_)
    exact (mem_touchedCols _ k).2 ⟨e, he, hek⟩
  have hfin := finalizeStep_spec lb n_col (touchedCols (rowEvents Ap Aj Ax Bp Bj Bx i))
    ((rowEvents Ap Aj Ax Bp Bj Bx i).foldl evStep { st with head := -2, length := 0 }) []
    hinv.repr_ok hnd hlt hinv.sums_len hinv.next_len hinv.clean hcls
  rw [← hinv.len_eq] at hfin
  rw [hfin]
  have hfun : (fun k =>
      ((rowEvents Ap Aj Ax Bp Bj Bx i).foldl evStep
        { st with head := -2, length := 0 }).sums.getD k 0) =
      rowDot Ap Aj Ax Bp Bj Bx i := by
    funext k
    rw [hinv.sums_eq k]
    rfl
  rw [hfun, hinv.len_eq, List.nil_append]
  rfl

/-! ### Index bounds from CSR validity -/

theorem csrMono (nr nc : ℕ) (p idx : List ℕ) (h : CSRok nr nc p idx) :
    ∀ a b, a ≤ b → b ≤ nr → p.getD a 0 ≤ p.getD b 0 := by
  intro a b hab
  induction b with
  | zero =>
    intro _
    have : a = 0 := Nat.le_zero.1 hab
    simp [this]
  | succ b ih =>
    intro hbnr
    rcases Nat.lt_or_ge a (b+1) with h' | h'
    · have h1 : p.getD a 0 ≤ p.getD b 0 := ih (Nat.lt_succ_iff.1 h') (Nat.le_of_succ_le hbnr)
      have h2 : p.getD b 0 ≤ p.getD (b+1) 0 := h.2.2.1 b (Nat.lt_of_succ_le hbnr)
      exact le_trans h1 h2
    · have : a = b + 1 := Nat.le_antisymm hab h'
      simp [this]

theorem rowEvents_cols_lt (n_row n_inner n_col : ℕ) (Ap Aj : List ℕ) (Ax : List ℚ)
    (Bp Bj : List ℕ) (Bx : List ℚ)
    (hA : CSRok n_row n_inner Ap Aj) (hB : CSRok n_inner n_col Bp Bj)
    (i : ℕ) (hi : i < n_row) :
    ∀ e ∈ rowEvents Ap Aj Ax Bp Bj Bx i, e.1 < n_col := by
  intro e he
  unfold rowEvents at he
  obtain ⟨jj, hjj, he⟩ := List.mem_flatMap.1 he
  obtain ⟨kk, hkk, rfl⟩ := List.mem_map.1 he
  obtain ⟨hjj1, hjj2⟩ := List.mem_range'_1.1 hjj
  have hadjA : Ap.getD i 0 ≤ Ap.getD (i+1) 0 := hA.2.2.1 i hi
  have hjj_lt : jj < Ap.getD (i+1) 0 := by omega
  have hApi1 : Ap.getD (i+1) 0 ≤ Aj.length :=
    le_trans (csrMono n_row n_inner Ap Aj hA (i+1) n_row hi (le_refl n_row)) hA.2.2.2.1
  have hjjA : jj < Aj.length := lt_of_lt_of_le hjj_lt hApi1
  have hj : Aj.getD jj 0 < n_inner := hA.2.2.2.2 _ (getD_mem Aj jj 0 hjjA)
  obtain ⟨hkk1, hkk2⟩ := List.mem_range'_1.1 hkk
  have hadjB : Bp.getD (Aj.getD jj 0) 0 ≤ Bp.getD (Aj.getD jj 0 + 1) 0 :=
    hB.2.2.1 _ hj
  have hkk_lt : kk < Bp.getD (Aj.getD jj 0 + 1) 0 := by omega
  have hBpj1 : Bp.getD (Aj.getD jj 0 + 1) 0 ≤ Bj.length :=
    le_trans (csrMono n_inner n_col Bp Bj hB (Aj.getD jj 0 + 1) n_inner hj
      (le_refl n_inner)) hB.2.2.2.1
  have hkkB : kk < Bj.length := lt_of_lt_of_le hkk_lt hBpj1
  exact hB.2.2.2.2 _ (getD_mem Bj kk 0 hkkB)

/-! ### Global structure of the row loop -/

/-- Number of entries the kernel emits for row `i`. -/
def selLen (Ap Aj : List ℕ) (Ax : List ℚ) (Bp Bj : List ℕ) (Bx : List ℚ)
    (ntop : ℕ) (lb : ℚ) (i : ℕ) : ℕ :=
  (rowSelected Ap Aj Ax Bp Bj Bx ntop lb i).length

/-- Value of the nonzero counter `nnz` after the first `r` rows. -/
def nnzUpTo (Ap Aj : List ℕ) (Ax : List ℚ) (Bp Bj : List ℕ) (Bx : List ℚ)
    (ntop : ℕ) (lb : ℚ) (r : ℕ) : ℕ :=
  ((List.range r).map (selLen Ap Aj Ax Bp Bj Bx ntop lb)).sum

/-- The row-pointer array after `r` rows. -/
def cpOf (Ap Aj : List ℕ) (Ax : List ℚ) (Bp Bj : List ℕ) (Bx : List ℚ)
    (ntop : ℕ) (lb : ℚ) (r : ℕ) : List ℕ :=
  (List.range (r+1)).map (nnzUpTo Ap Aj Ax Bp Bj Bx ntop lb)

/-- The output column array after `r` rows. -/
def cjOf (Ap Aj : List ℕ) (Ax : List ℚ) (Bp Bj : List ℕ) (Bx : List ℚ)
    (ntop : ℕ) (lb : ℚ) (r : ℕ) : List ℕ :=
  (List.range r).flatMap
    (fun i => (rowSelected Ap Aj Ax Bp Bj Bx ntop lb i).map candidate.index)

/-- The output value array after `r` rows. -/
def cxOf (Ap Aj : List ℕ) (Ax : List ℚ) (Bp Bj : List ℕ) (Bx : List ℚ)
    (ntop : ℕ) (lb : ℚ) (r : ℕ) : List ℚ :=
  (List.range r).flatMap
    (fun i => (rowSelected Ap Aj Ax Bp Bj Bx ntop lb i).map candidate.value)

theorem nnzUpTo_succ (Ap Aj : List ℕ) (Ax : List ℚ) (Bp Bj : List ℕ) (Bx : List ℚ)
    (ntop : ℕ) (lb : ℚ) (r : ℕ) :
    nnzUpTo Ap Aj Ax Bp Bj Bx ntop lb (r+1) =
      nnzUpTo Ap Aj Ax Bp Bj Bx ntop lb r + selLen Ap Aj Ax Bp Bj Bx ntop lb r := by
  unfold nnzUpTo
  rw [List.range_succ, List.map_append, List.sum_append]
  simp

theorem cpOf_succ (Ap Aj : List ℕ) (Ax : List ℚ) (Bp Bj : List ℕ) (Bx : List ℚ)
    (ntop : ℕ) (lb : ℚ) (r : ℕ) :
    cpOf Ap Aj Ax Bp Bj Bx ntop lb (r+1) =
      cpOf Ap Aj Ax Bp Bj Bx ntop lb r ++ [nnzUpTo Ap Aj Ax Bp Bj Bx ntop lb (r+1)] := by
  unfold cpOf
  rw [List.range_succ, List.map_append]
  simp

theorem cjOf_succ (Ap Aj : List ℕ) (Ax : List ℚ) (Bp Bj : List ℕ) (Bx : List ℚ)
    (ntop : ℕ) (lb : ℚ) (r : ℕ) :
    cjOf Ap Aj Ax Bp Bj Bx ntop lb (r+1) =
      cjOf Ap Aj Ax Bp Bj Bx ntop lb r ++
        (rowSelected Ap Aj Ax Bp Bj Bx ntop lb r).map candidate.index := by
  unfold cjOf
  rw [List.range_succ, List.flatMap_append]
  simp

theorem cxOf_succ (Ap Aj : List ℕ) (Ax : List ℚ) (Bp Bj : List ℕ) (Bx : List ℚ)
    (ntop : ℕ) (lb : ℚ) (r : ℕ) :
    cxOf Ap Aj Ax Bp Bj Bx ntop lb (r+1) =
      cxOf Ap Aj Ax Bp Bj Bx ntop lb r ++
        (rowSelected Ap Aj Ax Bp Bj Bx ntop lb r).map candidate.value := by
  unfold cxOf
  rw [List.range_succ, List.flatMap_append]
  simp

theorem cjOf_length (Ap Aj : List ℕ) (Ax : List ℚ) (Bp Bj : List ℕ) (Bx : List ℚ)
    (ntop : ℕ) (lb : ℚ) (r : ℕ) :
    (cjOf Ap Aj Ax Bp Bj Bx ntop lb r).length = nnzUpTo Ap Aj Ax Bp Bj Bx ntop lb r := by
  unfold cjOf nnzUpTo
  rw [List.length_flatMap]
  congr 1
  refine List.map_congr_left (fun i _ => ?_)
  simp [selLen]

theorem cxOf_length (Ap Aj : List ℕ) (Ax : List ℚ) (Bp Bj : List ℕ) (Bx : List ℚ)
    (ntop : ℕ) (lb : ℚ) (r : ℕ) :
    (cxOf Ap Aj Ax Bp Bj Bx ntop lb r).length = nnzUpTo Ap Aj Ax Bp Bj Bx ntop lb r := by
  unfold cxOf nnzUpTo
  rw [List.length_flatMap]
  congr 1
  refine List.map_congr_left (fun i _ => ?_)
  simp [selLen]

/-- Main structure theorem for the row loop of `sparse_dot_topn_source`:
under CSR validity, after each prefix of rows the scratch arrays are back
to their clean state and the output consists of the per-row selections
laid out contiguously, with row pointers recording the running counts. -/
theorem topnFold_spec (n_row n_inner n_col : ℕ) (Ap Aj : List ℕ) (Ax : List ℚ)
    (Bp Bj : List ℕ) (Bx : List ℚ) (ntop : ℕ) (lb : ℚ)
    (hA : CSRok n_row n_inner Ap Aj) (hB : CSRok n_inner n_col Bp Bj) :
    ∀ r, r ≤ n_row →
      (topnFold n_col Ap Aj Ax Bp Bj Bx ntop lb r).1.sums = List.replicate n_col 0 ∧
      (topnFold n_col Ap Aj Ax Bp Bj Bx ntop lb r).1.next = List.replicate n_col (-1) ∧
      (topnFold n_col Ap Aj Ax Bp Bj Bx ntop lb r).2 =
        { Cp := cpOf Ap Aj Ax Bp Bj Bx ntop lb r,
          Cj := cjOf Ap Aj Ax Bp Bj Bx ntop lb r,
          Cx := cxOf Ap Aj Ax Bp Bj Bx ntop lb r } := by
  intro r
  induction r with
  | zero =>
    intro _
    refine ⟨rfl, rfl, ?_⟩
    rfl
  | succ r ih =>
    intro hr1
    obtain ⟨hs, hn, hout⟩ := ih (Nat.le_of_succ_le hr1)
    have hev := rowEvents_cols_lt n_row n_inner n_col Ap Aj Ax Bp Bj Bx hA hB r
      (Nat.lt_of_succ_le hr1)
    have hstep : topnFold n_col Ap Aj Ax Bp Bj Bx ntop lb (r+1) =
        topnStep Ap Aj Ax Bp Bj Bx ntop lb (topnFold n_col Ap Aj Ax Bp Bj Bx ntop lb r) r := by
      unfold topnFold
      rw [List.range_succ, List.foldl_append, List.foldl_cons, List.foldl_nil]
    rw [hstep]
    unfold topnStep
    rw [processRow_spec n_col Ap Aj Ax Bp Bj Bx lb r _ hs hn hev, hout]
    refine ⟨rfl, rfl, ?_⟩
    show CSROut.mk _ _ _ = CSROut.mk _ _ _
    have hsel : selectTopn ntop (rowCandidates Ap Aj Ax Bp Bj Bx lb r) =
        rowSelected Ap Aj Ax Bp Bj Bx ntop lb r := rfl
    rw [CSROut.mk.injEq]
    refine ⟨?_, ?_, ?_⟩
    · rw [cpOf_succ, nnzUpTo_succ]
      simp [hsel, cjOf_length, selLen]
    · rw [cjOf_succ]
      simp [hsel]
    · rw [cxOf_succ]
      simp [hsel]

/-! ### The bookkeeping variant -/

theorem plusStep_fst (Ap Aj : List ℕ) (Ax : List ℚ) (Bp Bj : List ℕ) (Bx : List ℚ)
    (ntop : ℕ) (lb : ℚ) (acc : (RowState × CSROut) × ℕ) (i : ℕ) :
    (plusStep Ap Aj Ax Bp Bj Bx ntop lb acc i).1 =
      topnStep Ap Aj Ax Bp Bj Bx ntop lb acc.1 i := rfl

theorem plusFold_fst (n_col : ℕ) (Ap Aj : List ℕ) (Ax : List ℚ) (Bp Bj : List ℕ)
    (Bx : List ℚ) (ntop : ℕ) (lb : ℚ) :
    ∀ r, (plusFold n_col Ap Aj Ax Bp Bj Bx ntop lb r).1 =
      topnFold n_col Ap Aj Ax Bp Bj Bx ntop lb r := by
  intro r
  induction r with
  | zero => rfl
  | succ r ih =>
    unfold plusFold topnFold
    rw [List.range_succ, List.foldl_append, List.foldl_cons, List.foldl_nil,
        List.foldl_append, List.foldl_cons, List.foldl_nil]
    rw [plusStep_fst]
    unfold plusFold topnFold at ih
    rw [ih]

/-- The maximum, over the first `r` rows, of the number of distinct
columns touched during the row (the chain length), accumulated exactly as
the C++ updates `minmax_ntop`. -/
def widthMax (Ap Aj : List ℕ) (Ax : List ℚ) (Bp Bj : List ℕ) (Bx : List ℚ)
    (r : ℕ) : ℕ :=
  (List.range r).foldl
    (fun m i => if (rowTouched Ap Aj Ax Bp Bj Bx i).length > m
                then (rowTouched Ap Aj Ax Bp Bj Bx i).length else m) 0

theorem plusFold_snd (n_row n_inner n_col : ℕ) (Ap Aj : List ℕ) (Ax : List ℚ)
    (Bp Bj : List ℕ) (Bx : List ℚ) (ntop : ℕ) (lb : ℚ)
    (hA : CSRok n_row n_inner Ap Aj) (hB : CSRok n_inner n_col Bp Bj) :
    ∀ r, r ≤ n_row →
      (plusFold n_col Ap Aj Ax Bp Bj Bx ntop lb r).2 =
        widthMax Ap Aj Ax Bp Bj Bx r := by
  intro r
  induction r with
  | zero => intro _; rfl
  | succ r ih =>
    intro hr1
    have hmm := ih (Nat.le_of_succ_le hr1)
    obtain ⟨hs, hn, _⟩ := topnFold_spec n_row n_inner n_col Ap Aj Ax Bp Bj Bx ntop lb
      hA hB r (Nat.le_of_succ_le hr1)
    have hev := rowEvents_cols_lt n_row n_inner n_col Ap Aj Ax Bp Bj Bx hA hB r
      (Nat.lt_of_succ_le hr1)
    have hstep : plusFold n_col Ap Aj Ax Bp Bj Bx ntop lb (r+1) =
        plusStep Ap Aj Ax Bp Bj Bx ntop lb (plusFold n_col Ap Aj Ax Bp Bj Bx ntop lb r) r := by
      unfold plusFold
      rw [List.range_succ, List.foldl_append, List.foldl_cons, List.foldl_nil]
    rw [hstep]
    unfold plusStep
    rw [plusFold_fst n_col Ap Aj Ax Bp Bj Bx ntop lb r,
        processRow_spec n_col Ap Aj Ax Bp Bj Bx lb r _ hs hn hev, hmm]
    show (if (rowTouched Ap Aj Ax Bp Bj Bx r).length > widthMax Ap Aj Ax Bp Bj Bx r
          then (rowTouched Ap Aj Ax Bp Bj Bx r).length
          else widthMax Ap Aj Ax Bp Bj Bx r) = widthMax Ap Aj Ax Bp Bj Bx (r+1)
    unfold widthMax
    rw [List.range_succ, List.foldl_append, List.foldl_cons, List.foldl_nil]

/-- The chain length of a row counts exactly the distinct result columns
of the row (the deduplicated event columns). -/
theorem touchedCols_length_dedup (es : List (ℕ × ℚ)) :
    (touchedCols es).length = (es.map Prod.fst).dedup.length := by
  have hperm : List.Perm (touchedCols es) ((es.map Prod.fst).dedup) := by
    refine List.perm_of_nodup_nodup_toFinset_eq (touchedCols_nodup es)
      (List.nodup_dedup _) ?_
    ext k
    simp only [List.mem_toFinset, List.mem_dedup, mem_touchedCols, List.mem_map]
  exact hperm.length_eq

/-! ### Extracting one row's slice of the output -/

theorem range_split (n i : ℕ) (hi : i < n) :
    List.range n = List.range i ++ (i :: List.range' (i+1) (n-i-1)) := by
  rw [List.range_eq_range', List.range_eq_range']
  have h1 : List.range' 0 i ++ List.range' (0 + 1 * i) (n - i) = List.range' 0 (n - i + i) :=
    List.range'_append 0 i (n-i) 1
  have h2 : n - i + i = n := by omega
  have h3 : 0 + 1 * i = i := by omega
  rw [h2, h3] at h1
  rw [← h1]
  have h4 : n - i = (n - i - 1) + 1 := by omega
  rw [h4, List.range'_succ]
  have h5 : n - i - 1 = n - (i+1) := by omega
  simp [h5]

theorem flatMap_range_slice {α : Type} (H : ℕ → List α) (n i : ℕ) (hi : i < n) :
    (((List.range n).flatMap H).drop
        (((List.range i).map (fun t => (H t).length)).sum)).take (H i).length = H i := by
  rw [range_split n i hi, List.flatMap_append]
  have hlen : ((List.range i).flatMap H).length =
      ((List.range i).map (fun t => (H t).length)).sum := by
    rw [List.length_flatMap]
    rfl
  rw [← hlen, List.drop_left, List.flatMap_cons, List.take_left]

theorem zip_flatMap {α β : Type} (l : List ℕ) (F : ℕ → List α) (G : ℕ → List β)
    (h : ∀ i ∈ l, (F i).length = (G i).length) :
    (l.flatMap F).zip (l.flatMap G) = l.flatMap (fun i => (F i).zip (G i)) := by
  induction l with
  | nil => rfl
  | cons a l ih =>
    rw [List.flatMap_cons, List.flatMap_cons, List.flatMap_cons,
        List.zip_append (h a (List.mem_cons_self _ _)),
        ih (fun i hi => h i (List.mem_cons_of_mem _ hi))]

theorem cpOf_getD (Ap Aj : List ℕ) (Ax : List ℚ) (Bp Bj : List ℕ) (Bx : List ℚ)
    (ntop : ℕ) (lb : ℚ) (r i : ℕ) (hi : i ≤ r) :
    (cpOf Ap Aj Ax Bp Bj Bx ntop lb r).getD i 0 = nnzUpTo Ap Aj Ax Bp Bj Bx ntop lb i := by
  unfold cpOf
  have hlen : i < ((List.range (r+1)).map (nnzUpTo Ap Aj Ax Bp Bj Bx ntop lb)).length := by
    simp; omega
  rw [getD_of_lt _ _ _ hlen, List.getElem_map, List.getElem_range]

/-- Under CSR validity, the `(column, value)` pairs of output row `i` of
`sparse_dot_topn_source` are exactly the row's selected top candidates,
in order. -/
theorem outRowPairs_eq (n_row n_inner n_col : ℕ) (Ap Aj : List ℕ) (Ax : List ℚ)
    (Bp Bj : List ℕ) (Bx : List ℚ) (ntop : ℕ) (lb : ℚ)
    (hA : CSRok n_row n_inner Ap Aj) (hB : CSRok n_inner n_col Bp Bj)
    (i : ℕ) (hi : i < n_row) :
    outRowPairs (sparse_dot_topn_source n_row n_col Ap Aj Ax Bp Bj Bx ntop lb) i =
      (rowSelected Ap Aj Ax Bp Bj Bx ntop lb i).map (fun c => (c.index, c.value)) := by
  obtain ⟨_, _, hout⟩ := topnFold_spec n_row n_inner n_col Ap Aj Ax Bp Bj Bx ntop lb hA hB
    n_row (le_refl n_row)
  have hCp : (sparse_dot_topn_source n_row n_col Ap Aj Ax Bp Bj Bx ntop lb).Cp =
      cpOf Ap Aj Ax Bp Bj Bx ntop lb n_row := by
    unfold sparse_dot_topn_source; rw [hout]
  have hCj : (sparse_dot_topn_source n_row n_col Ap Aj Ax Bp Bj Bx ntop lb).Cj =
      cjOf Ap Aj Ax Bp Bj Bx ntop lb n_row := by
    unfold sparse_dot_topn_source; rw [hout]
  have hCx : (sparse_dot_topn_source n_row n_col Ap Aj Ax Bp Bj Bx ntop lb).Cx =
      cxOf Ap Aj Ax Bp Bj Bx ntop lb n_row := by
    unfold sparse_dot_topn_source; rw [hout]
  unfold outRowPairs
  rw [hCp, hCj, hCx,
      cpOf_getD Ap Aj Ax Bp Bj Bx ntop lb n_row i (le_of_lt hi),
      cpOf_getD Ap Aj Ax Bp Bj Bx ntop lb n_row (i+1) hi]
  unfold cjOf cxOf
  rw [zip_flatMap _ _ _ (fun t _ => by simp)]
  simp only [List.zip_map']
  rw [nnzUpTo_succ]
  have hsub : nnzUpTo Ap Aj Ax Bp Bj Bx ntop lb i + selLen Ap Aj Ax Bp Bj Bx ntop lb i -
      nnzUpTo Ap Aj Ax Bp Bj Bx ntop lb i = selLen Ap Aj Ax Bp Bj Bx ntop lb i := by
    omega
  rw [hsub]
  have hn1 : nnzUpTo Ap Aj Ax Bp Bj Bx ntop lb i =
      ((List.range i).map (fun t =>
        ((rowSelected Ap Aj Ax Bp Bj Bx ntop lb t).map
          (fun c => (c.index, c.value))).length)).sum := by
    unfold nnzUpTo
    refine congrArg _ (List.map_congr_left fun t _ => ?_)
    simp [selLen]
  have hn2 : selLen Ap Aj Ax Bp Bj Bx ntop lb i =
      ((rowSelected Ap Aj Ax Bp Bj Bx ntop lb i).map (fun c => (c.index, c.value))).length := by
    simp [selLen]
  rw [hn1, hn2]
  exact flatMap_range_slice
    (fun t => (rowSelected Ap Aj Ax Bp Bj Bx ntop lb t).map (fun c => (c.index, c.value)))
    n_row i hi

/-- Under CSR validity, the values of output row `i` of
`sparse_dot_topn_source` are exactly the values of the row's selected top
candidates, in order. -/
theorem outRowValues_eq (n_row n_inner n_col : ℕ) (Ap Aj : List ℕ) (Ax : List ℚ)
    (Bp Bj : List ℕ) (Bx : List ℚ) (ntop : ℕ) (lb : ℚ)
    (hA : CSRok n_row n_inner Ap Aj) (hB : CSRok n_inner n_col Bp Bj)
    (i : ℕ) (hi : i < n_row) :
    outRowValues (sparse_dot_topn_source n_row n_col Ap Aj Ax Bp Bj Bx ntop lb) i =
      (rowSelected Ap Aj Ax Bp Bj Bx ntop lb i).map candidate.value := by
  obtain ⟨_, _, hout⟩ := topnFold_spec n_row n_inner n_col Ap Aj Ax Bp Bj Bx ntop lb hA hB
    n_row (le_refl n_row)
  have hCp : (sparse_dot_topn_source n_row n_col Ap Aj Ax Bp Bj Bx ntop lb).Cp =
      cpOf Ap Aj Ax Bp Bj Bx ntop lb n_row := by
    unfold sparse_dot_topn_source; rw [hout]
  have hCx : (sparse_dot_topn_source n_row n_col Ap Aj Ax Bp Bj Bx ntop lb).Cx =
      cxOf Ap Aj Ax Bp Bj Bx ntop lb n_row := by
    unfold sparse_dot_topn_source; rw [hout]
  unfold outRowValues
  rw [hCp, hCx,
      cpOf_getD Ap Aj Ax Bp Bj Bx ntop lb n_row i (le_of_lt hi),
      cpOf_getD Ap Aj Ax Bp Bj Bx ntop lb n_row (i+1) hi]
  unfold cxOf
  rw [nnzUpTo_succ]
  have hsub : nnzUpTo Ap Aj Ax Bp Bj Bx ntop lb i + selLen Ap Aj Ax Bp Bj Bx ntop lb i -
      nnzUpTo Ap Aj Ax Bp Bj Bx ntop lb i = selLen Ap Aj Ax Bp Bj Bx ntop lb i := by
    omega
  rw [hsub]
  have hn1 : nnzUpTo Ap Aj Ax Bp Bj Bx ntop lb i =
      ((List.range i).map (fun t =>
        ((rowSelected Ap Aj Ax Bp Bj Bx ntop lb t).map candidate.value).length)).sum := by
    unfold nnzUpTo
    refine congrArg _ (List.map_congr_left fun t _ => ?_)
    simp [selLen]
  have hn2 : selLen Ap Aj Ax Bp Bj Bx ntop lb i =
      ((rowSelected Ap Aj Ax Bp Bj Bx ntop lb i).map candidate.value).length := by
    simp [selLen]
  rw [hn1, hn2]
  exact flatMap_range_slice
    (fun t => (rowSelected Ap Aj Ax Bp Bj Bx ntop lb t).map candidate.value)
    n_row i hi

/-! ### Properties of the per-row candidates and of the selection -/

theorem mem_candsOf (lb : ℚ) (f : ℕ → ℚ) (tl : List ℕ) (c : candidate) :
    c ∈ candsOf lb f tl ↔ c.index ∈ tl ∧ lb < f c.index ∧ c.value = f c.index := by
  unfold candsOf
  rw [List.mem_filterMap]
  constructor
  · rintro ⟨k, hk, hsome⟩
    by_cases h : lb < f k
    · rw [if_pos h] at hsome
      have hc : c = ⟨k, f k⟩ := (Option.some_inj.1 hsome).symm
      subst hc
      exact ⟨hk, h, rfl⟩
    · rw [if_neg h] at hsome
      cases hsome
  · rintro ⟨hk, h, hv⟩
    refine ⟨c.index, hk, ?_⟩
    rw [if_pos h]
    obtain ⟨ci, cv⟩ := c
    simp only at hv
    rw [hv]

theorem candsOf_map_index (lb : ℚ) (f : ℕ → ℚ) (tl : List ℕ) :
    (candsOf lb f tl).map candidate.index = tl.filter (fun k => decide (lb < f k)) := by
  induction tl with
  | nil => rfl
  | cons k tl ih =>
    rw [candsOf_cons, List.map_append, ih, List.filter_cons]
    by_cases h : lb < f k <;> simp [h]

theorem rowCandidates_index_nodup (Ap Aj : List ℕ) (Ax : List ℚ) (Bp Bj : List ℕ)
    (Bx : List ℚ) (lb : ℚ) (i : ℕ) :
    ((rowCandidates Ap Aj Ax Bp Bj Bx lb i).map candidate.index).Nodup := by
  unfold rowCandidates
  rw [candsOf_map_index]
  exact (touchedCols_nodup _).filter _

theorem rowSelected_sorted (Ap Aj : List ℕ) (Ax : List ℚ) (Bp Bj : List ℕ)
    (Bx : List ℚ) (ntop : ℕ) (lb : ℚ) (i : ℕ) :
    List.Sorted cmpGE (rowSelected Ap Aj Ax Bp Bj Bx ntop lb i) :=
  List.Pairwise.sublist (List.take_sublist ntop _) (List.sorted_insertionSort cmpGE _)

theorem mem_selectTopn (ntop : ℕ) (cands : List candidate) (c : candidate)
    (h : c ∈ selectTopn ntop cands) : c ∈ cands :=
  (List.perm_insertionSort cmpGE cands).subset (List.take_subset ntop _ h)

theorem rowSelected_length (Ap Aj : List ℕ) (Ax : List ℚ) (Bp Bj : List ℕ)
    (Bx : List ℚ) (ntop : ℕ) (lb : ℚ) (i : ℕ) :
    (rowSelected Ap Aj Ax Bp Bj Bx ntop lb i).length =
      min (rowCandidates Ap Aj Ax Bp Bj Bx lb i).length ntop := by
  unfold rowSelected selectTopn
  rw [List.length_take, (List.perm_insertionSort cmpGE _).length_eq, Nat.min_comm]

theorem rowSelected_map_index (Ap Aj : List ℕ) (Ax : List ℚ) (Bp Bj : List ℕ)
    (Bx : List ℚ) (ntop : ℕ) (lb : ℚ) (i : ℕ) :
    (rowSelected Ap Aj Ax Bp Bj Bx ntop lb i).map candidate.index =
      ((List.insertionSort cmpGE (rowCandidates Ap Aj Ax Bp Bj Bx lb i)).map
        candidate.index).take ntop := by
  unfold rowSelected selectTopn
  rw [List.map_take]

theorem rowSelected_index_nodup (Ap Aj : List ℕ) (Ax : List ℚ) (Bp Bj : List ℕ)
    (Bx : List ℚ) (ntop : ℕ) (lb : ℚ) (i : ℕ) :
    ((rowSelected Ap Aj Ax Bp Bj Bx ntop lb i).map candidate.index).Nodup := by
  rw [rowSelected_map_index]
  refine (List.take_sublist ntop _).nodup ?_
  refine ((List.perm_insertionSort cmpGE _).map candidate.index).nodup_iff.2 ?_
  exact rowCandidates_index_nodup Ap Aj Ax Bp Bj Bx lb i

/-- Dominance of the selection: any candidate left out of the selected
prefix has value at most that of every selected candidate. -/
theorem rowSelected_dominates (Ap Aj : List ℕ) (Ax : List ℚ) (Bp Bj : List ℕ)
    (Bx : List ℚ) (ntop : ℕ) (lb : ℚ) (i : ℕ) (c : candidate)
    (hc : c ∈ rowCandidates Ap Aj Ax Bp Bj Bx lb i)
    (hnot : c ∉ rowSelected Ap Aj Ax Bp Bj Bx ntop lb i) :
    ∀ p ∈ rowSelected Ap Aj Ax Bp Bj Bx ntop lb i, c.value ≤ p.value := by
  intro p hp
  have hcs : c ∈ List.insertionSort cmpGE (rowCandidates Ap Aj Ax Bp Bj Bx lb i) :=
    (List.perm_insertionSort cmpGE _).symm.subset hc
  have hsplit := List.take_append_drop ntop
    (List.insertionSort cmpGE (rowCandidates Ap Aj Ax Bp Bj Bx lb i))
  have hcdrop : c ∈ (List.insertionSort cmpGE
      (rowCandidates Ap Aj Ax Bp Bj Bx lb i)).drop ntop := by
    rcases List.mem_append.1 (hsplit ▸ hcs) with h' | h'
    · exact absurd h' hnot
    · exact h'
  have hpair : List.Pairwise cmpGE
      ((List.insertionSort cmpGE (rowCandidates Ap Aj Ax Bp Bj Bx lb i)).take ntop ++
       (List.insertionSort cmpGE (rowCandidates Ap Aj Ax Bp Bj Bx lb i)).drop ntop) := by
    rw [hsplit]
    exact List.sorted_insertionSort cmpGE _
  exact (List.pairwise_append.1 hpair).2.2 p hp c hcdrop

/-! ### Threshold facts, valid for arbitrary inputs -/

theorem finalize_cands_above (lb : ℚ) :
    ∀ (n : ℕ) (st : RowState) (acc : List candidate),
    (∀ c ∈ acc, lb < c.value) →
    ∀ c ∈ (finalizeStep lb n st acc).2, lb < c.value := by
  intro n
  induction n with
  | zero => intro st acc h c hc; exact h c hc
  | succ n ih =>
    intro st acc h c hc
    rw [finalizeStep] at hc
    refine ih _ _ ?_ c hc
    intro c' hc'
    by_cases hcs : lb < st.sums.getD st.head.toNat 0
    · rw [if_pos hcs] at hc'
      rcases List.mem_append.1 hc' with h' | h'
      · exact h c' h'
      · rcases List.mem_singleton.1 h' with rfl
        exact hcs
    · rw [if_neg hcs] at hc'
      exact h c' hc'

theorem processRow_cands_above (Ap Aj : List ℕ) (Ax : List ℚ) (Bp Bj : List ℕ)
    (Bx : List ℚ) (lb : ℚ) (i : ℕ) (st : RowState) :
    ∀ c ∈ (processRow Ap Aj Ax Bp Bj Bx lb i st).2, lb < c.value := by
  unfold processRow
  exact finalize_cands_above lb _ _ [] (fun c hc => absurd hc (List.not_mem_nil c))

theorem topnFold_cx_above (n_col : ℕ) (Ap Aj : List ℕ) (Ax : List ℚ) (Bp Bj : List ℕ)
    (Bx : List ℚ) (ntop : ℕ) (lb : ℚ) :
    ∀ r, ∀ v ∈ (topnFold n_col Ap Aj Ax Bp Bj Bx ntop lb r).2.Cx, lb < v := by
  intro r
  induction r with
  | zero => intro v hv; cases hv
  | succ r ih =>
    intro v hv
    have hstep : topnFold n_col Ap Aj Ax Bp Bj Bx ntop lb (r+1) =
        topnStep Ap Aj Ax Bp Bj Bx ntop lb (topnFold n_col Ap Aj Ax Bp Bj Bx ntop lb r) r := by
      unfold topnFold
      rw [List.range_succ, List.foldl_append, List.foldl_cons, List.foldl_nil]
    rw [hstep] at hv
    unfold topnStep at hv
    rcases List.mem_append.1 hv with h' | h'
    · exact ih v h'
    · obtain ⟨c, hc, rfl⟩ := List.mem_map.1 h'
      exact processRow_cands_above Ap Aj Ax Bp Bj Bx lb r _ c
        (mem_selectTopn ntop _ c hc)

/-! ### Remaining helper lemmas for the claims -/

/-- The bookkeeping entry point writes exactly the CSR triple of the
plain entry point. -/
theorem plus_output_eq (n_row n_col : ℕ) (Ap Aj : List ℕ) (Ax : List ℚ)
    (Bp Bj : List ℕ) (Bx : List ℚ) (ntop : ℕ) (lb : ℚ) :
    (sparse_dot_plus_minmax_topn_source n_row n_col Ap Aj Ax Bp Bj Bx ntop lb).1 =
      sparse_dot_topn_source n_row n_col Ap Aj Ax Bp Bj Bx ntop lb := by
  unfold sparse_dot_plus_minmax_topn_source sparse_dot_topn_source
  show (plusFold n_col Ap Aj Ax Bp Bj Bx ntop lb n_row).1.2 =
    (topnFold n_col Ap Aj Ax Bp Bj Bx ntop lb n_row).2
  rw [plusFold_fst]

theorem nnzUpTo_mono (Ap Aj : List ℕ) (Ax : List ℚ) (Bp Bj : List ℕ) (Bx : List ℚ)
    (ntop : ℕ) (lb : ℚ) (a b : ℕ) (hab : a ≤ b) :
    nnzUpTo Ap Aj Ax Bp Bj Bx ntop lb a ≤ nnzUpTo Ap Aj Ax Bp Bj Bx ntop lb b := by
  induction b with
  | zero =>
    have : a = 0 := Nat.le_zero.1 hab
    simp [this]
  | succ b ih =>
    rcases Nat.lt_or_ge a (b+1) with h' | h'
    · have h1 := ih (Nat.lt_succ_iff.1 h')
      rw [nnzUpTo_succ]
      omega
    · have : a = b + 1 := Nat.le_antisymm hab h'
      simp [this]

theorem selLen_le (Ap Aj : List ℕ) (Ax : List ℚ) (Bp Bj : List ℕ) (Bx : List ℚ)
    (ntop : ℕ) (lb : ℚ) (i : ℕ) :
    selLen Ap Aj Ax Bp Bj Bx ntop lb i ≤ ntop := by
  unfold selLen
  rw [rowSelected_length]
  exact Nat.min_le_right _ _

/-- The if-then-else maximum of the C++ agrees with the deduplicated
distinct-column count formulation. -/
theorem widthMax_eq_dedup (Ap Aj : List ℕ) (Ax : List ℚ) (Bp Bj : List ℕ)
    (Bx : List ℚ) : ∀ r, widthMax Ap Aj Ax Bp Bj Bx r =
      (List.range r).foldl
        (fun m i => max ((rowEvents Ap Aj Ax Bp Bj Bx i).map Prod.fst).dedup.length m) 0 := by
  intro r
  induction r with
  | zero => rfl
  | succ r ih =>
    unfold widthMax
    rw [List.range_succ, List.foldl_append, List.foldl_cons, List.foldl_nil]
    unfold widthMax at ih
    rw [ih]
    have hlen : (rowTouched Ap Aj Ax Bp Bj Bx r).length =
        ((rowEvents Ap Aj Ax Bp Bj Bx r).map Prod.fst).dedup.length :=
      touchedCols_length_dedup _
    rw [hlen]
    rcases le_or_lt ((rowEvents Ap Aj Ax Bp Bj Bx r).map Prod.fst).dedup.length
      ((List.range r).foldl
        (fun m i => max ((rowEvents Ap Aj Ax Bp Bj Bx i).map Prod.fst).dedup.length m) 0)
      with h | h
    · rw [if_neg (by omega), List.foldl_append, List.foldl_cons, List.foldl_nil]
      exact (Nat.max_eq_right h).symm
    · rw [if_pos h, List.foldl_append, List.foldl_cons, List.foldl_nil]
      exact (Nat.max_eq_left (le_of_lt h)).symm

/-- Relation used to sort the brute-force reference rows descending by
value, mirroring the kernel's comparator on plain pairs. -/
def pairGE (a b : ℕ × ℚ) : Prop := b.2 ≤ a.2

instance : DecidableRel pairGE := fun a b => inferInstanceAs (Decidable (b.2 ≤ a.2))

/-- Brute-force reference row as the spec's correctness property words
it: all columns `k` below `n_col` whose dot value strictly exceeds the
bound, paired with their values, sorted descending by value and truncated
to `ntop`. -/
def bruteRow (n_col ntop : ℕ) (lb : ℚ) (f : ℕ → ℚ) : List (ℕ × ℚ) :=
  (List.insertionSort pairGE
    (((List.range n_col).filter (fun k => decide (lb < f k))).map
      (fun k => (k, f k)))).take ntop

/-! ### Claim theorems -/

/-- C1 (literal form, refuted): with a negative lower bound, a column of
the full product that is not structurally touched (here: the only column
of an all-zero row) has dot value `0 > lower_bound` and thus belongs to
the claimed brute-force top set, yet the kernel emits nothing for the
row: the written row is empty while the claimed top-1 set is `[(0, 0)]`,
on a perfectly valid CSR input. -/
theorem C1_literal_cex :
    CSRok 1 0 [0, 0] [] ∧ CSRok 0 1 [0] [] ∧
    outRowPairs (sparse_dot_topn_source 1 1 [0, 0] [] [] [0] [] [] 1 (-1)) 0 = [] ∧
    bruteRow 1 1 (-1) (rowDot [0, 0] [] [] [0] [] [] 0) = [(0, 0)] := by
  refine ⟨by decide, by decide, by decide, by decide⟩

/-- C2 (literal form, refuted): the stored `minmax_ntop` counts touched
columns before the threshold filter.  With `lower_bound = 5` the single
touched column has dot value `1 ≤ 5`, so the post-filter candidate count
is `0`, yet the kernel stores `1`. -/
theorem C2_literal_cex :
    CSRok 1 1 [0, 1] [0] ∧ CSRok 1 1 [0, 1] [0] ∧
    (sparse_dot_plus_minmax_topn_source 1 1 [0, 1] [0] [1] [0, 1] [0] [1] 1 5).2 = 1 ∧
    ((List.range 1).filter
      (fun k => decide ((5 : ℚ) < rowDot [0, 1] [0] [1] [0, 1] [0] [1] 0 k))).length = 0 := by
  refine ⟨by decide, by decide, by decide, by with_unfolding_all rfl⟩

/-- C3 (code bug): on a valid input whose row 0 reaches column {0} and
whose row 1 reaches columns {0, 1}, the documented result (the maximum
per-row count of distinct reachable columns) is `2`, but the function
returns `1`: the `unmarked` array is never reset between rows, so
columns already seen in earlier rows are not counted again. -/
theorem C3_width_only_eval :
    CSRok 2 2 [0, 1, 3] [0, 0, 1] ∧ CSRok 2 2 [0, 1, 2] [0, 1] ∧
    sparse_dot_only_minmax_topn_source 2 2 [0, 1, 3] [0, 0, 1] [0, 1, 2] [0, 1] = 1 ∧
    ((rowEvents [0, 1, 3] [0, 0, 1] [] [0, 1, 2] [0, 1] [] 1).map Prod.fst).dedup.length
      = 2 := by
  refine ⟨by decide, by decide, by decide, by decide⟩

/-- C4: the bookkeeping entry point writes exactly the same output CSR
triple (Cp, Cj, Cx) as the plain entry point on every input; the two
differ only in the additionally stored `minmax_ntop`. -/
theorem C4_same_csr_output (n_row n_col : ℕ) (Ap Aj : List ℕ) (Ax : List ℚ)
    (Bp Bj : List ℕ) (Bx : List ℚ) (ntop : ℕ) (lb : ℚ) :
    (sparse_dot_plus_minmax_topn_source n_row n_col Ap Aj Ax Bp Bj Bx ntop lb).1 =
      sparse_dot_topn_source n_row n_col Ap Aj Ax Bp Bj Bx ntop lb :=
  plus_output_eq n_row n_col Ap Aj Ax Bp Bj Bx ntop lb

/-- C7: every value either entry point writes into the output value
array is strictly greater than the lower bound; a sum exactly equal to
the bound is never emitted.  This holds for arbitrary inputs. -/
theorem C7_threshold_strict (n_row n_col : ℕ) (Ap Aj : List ℕ) (Ax : List ℚ)
    (Bp Bj : List ℕ) (Bx : List ℚ) (ntop : ℕ) (lb : ℚ) :
    (∀ v ∈ (sparse_dot_topn_source n_row n_col Ap Aj Ax Bp Bj Bx ntop lb).Cx, lb < v) ∧
    (∀ v ∈ (sparse_dot_plus_minmax_topn_source n_row n_col Ap Aj Ax Bp Bj Bx ntop lb).1.Cx,
      lb < v) := by
  have h1 : ∀ v ∈ (sparse_dot_topn_source n_row n_col Ap Aj Ax Bp Bj Bx ntop lb).Cx,
      lb < v := by
    intro v hv
    exact topnFold_cx_above n_col Ap Aj Ax Bp Bj Bx ntop lb n_row v hv
  refine ⟨h1, ?_⟩
  rw [plus_output_eq]
  exact h1

/-- C9 (literal form, refuted): a touched column whose accumulated value
is exactly zero is emitted whenever the lower bound is negative: here the
dot product of row 0 with column 0 is exactly `0`, the bound is `-1`, and
the pair `(0, 0)` appears in the output row. -/
theorem C9_literal_cex :
    CSRok 1 2 [0, 2] [0, 1] ∧ CSRok 2 1 [0, 1, 2] [0, 0] ∧
    rowDot [0, 2] [0, 1] [1, -1] [0, 1, 2] [0, 0] [1, 1] 0 0 = 0 ∧
    0 ∈ rowTouched [0, 2] [0, 1] [1, -1] [0, 1, 2] [0, 0] [1, 1] 0 ∧
    outRowPairs
      (sparse_dot_topn_source 1 1 [0, 2] [0, 1] [1, -1] [0, 1, 2] [0, 0] [1, 1] 1 (-1)) 0
      = [(0, 0)] := by
  refine ⟨by decide, by decide, by with_unfolding_all rfl, by decide,
    by with_unfolding_all rfl⟩

/-- C10 (code bug): on a shared valid sparsity pattern, the bookkeeping
entry point stores `2` (row 1 touches two distinct columns) while the
width-only entry point returns `1`, because the latter never resets its
`unmarked` array between rows. -/
theorem C10_variants_disagree :
    CSRok 2 2 [0, 1, 3] [0, 0, 1] ∧ CSRok 2 2 [0, 1, 2] [0, 1] ∧
    (sparse_dot_plus_minmax_topn_source 2 2 [0, 1, 3] [0, 0, 1] [1, 1, 1]
      [0, 1, 2] [0, 1] [1, 1] 0 0).2 = 2 ∧
    sparse_dot_only_minmax_topn_source 2 2 [0, 1, 3] [0, 0, 1] [0, 1, 2] [0, 1] = 1 := by
  refine ⟨by decide, by decide, by decide, by decide⟩

/-- C1 (amended): for every valid CSR input, every `ntop` and every
`lower_bound`, output row `i` of `sparse_dot_topn_source` carries
distinct columns, each entry is a structurally touched column paired with
its exact dot product strictly above the bound, the row length is the
number of qualifying candidates truncated to `ntop`, and any qualifying
candidate left out has value at most that of every emitted entry: the
row is exactly a top-`ntop`-by-descending-value selection of the
qualifying candidate set (restricted, versus the literal claim, to
structurally touched columns: untouched columns are never emitted even
when `0 > lower_bound`). -/
theorem C1_row_is_top_ntop (n_row n_inner n_col : ℕ) (Ap Aj : List ℕ) (Ax : List ℚ)
    (Bp Bj : List ℕ) (Bx : List ℚ) (ntop : ℕ) (lb : ℚ)
    (hA : CSRok n_row n_inner Ap Aj) (hB : CSRok n_inner n_col Bp Bj)
    (i : ℕ) (hi : i < n_row) :
    ((outRowPairs (sparse_dot_topn_source n_row n_col Ap Aj Ax Bp Bj Bx ntop lb) i).map
        Prod.fst).Nodup ∧
    (∀ p ∈ outRowPairs (sparse_dot_topn_source n_row n_col Ap Aj Ax Bp Bj Bx ntop lb) i,
        p.1 ∈ rowTouched Ap Aj Ax Bp Bj Bx i ∧
        p.2 = rowDot Ap Aj Ax Bp Bj Bx i p.1 ∧ lb < p.2) ∧
    (outRowPairs (sparse_dot_topn_source n_row n_col Ap Aj Ax Bp Bj Bx ntop lb) i).length =
      min (rowCandidates Ap Aj Ax Bp Bj Bx lb i).length ntop ∧
    (∀ k, k ∈ rowTouched Ap Aj Ax Bp Bj Bx i → lb < rowDot Ap Aj Ax Bp Bj Bx i k →
        k ∉ (outRowPairs (sparse_dot_topn_source n_row n_col Ap Aj Ax Bp Bj Bx ntop lb) i).map
          Prod.fst →
        ∀ p ∈ outRowPairs (sparse_dot_topn_source n_row n_col Ap Aj Ax Bp Bj Bx ntop lb) i,
          rowDot Ap Aj Ax Bp Bj Bx i k ≤ p.2) := by
  have hrw := outRowPairs_eq n_row n_inner n_col Ap Aj Ax Bp Bj Bx ntop lb hA hB i hi
  rw [hrw]
  have hmapfst : ((rowSelected Ap Aj Ax Bp Bj Bx ntop lb i).map
      (fun c => (c.index, c.value))).map Prod.fst =
      (rowSelected Ap Aj Ax Bp Bj Bx ntop lb i).map candidate.index := by
    rw [List.map_map]
    rfl
  refine ⟨?_, ?_, ?_, ?_⟩
  · rw [hmapfst]
    exact rowSelected_index_nodup Ap Aj Ax Bp Bj Bx ntop lb i
  · intro p hp
    obtain ⟨c, hc, rfl⟩ := List.mem_map.1 hp
    have hcand : c ∈ rowCandidates Ap Aj Ax Bp Bj Bx lb i :=
      mem_selectTopn ntop _ c hc
    unfold rowCandidates at hcand
    obtain ⟨htc, hlb, hv⟩ := (mem_candsOf lb _ _ c).1 hcand
    exact ⟨htc, hv, hv ▸ hlb⟩
  · rw [List.length_map]
    exact rowSelected_length Ap Aj Ax Bp Bj Bx ntop lb i
  · intro k hk hklb hknot p hp
    obtain ⟨c, hc, rfl⟩ := List.mem_map.1 hp
    have hcand : (⟨k, rowDot Ap Aj Ax Bp Bj Bx i k⟩ : candidate) ∈
        rowCandidates Ap Aj Ax Bp Bj Bx lb i := by
      unfold rowCandidates
      exact (mem_candsOf lb _ _ _).2 ⟨hk, hklb, rfl⟩
    have hnotsel : (⟨k, rowDot Ap Aj Ax Bp Bj Bx i k⟩ : candidate) ∉
        rowSelected Ap Aj Ax Bp Bj Bx ntop lb i := by
      intro hmem
      refine hknot ?_
      rw [hmapfst]
      exact List.mem_map.2 ⟨_, hmem, rfl⟩
    exact rowSelected_dominates Ap Aj Ax Bp Bj Bx ntop lb i _ hcand hnotsel c hc

/-- C1 witness at the reference scenario `A = [[1,2],[0,3]]`,
`B = identity`, `ntop = 2`, `lower_bound = 0`: the conclusion holds with
all hypotheses discharged concretely. -/
theorem C1_row_is_top_ntop_witness :
    (outRowPairs (sparse_dot_topn_source 2 2 [0, 2, 3] [0, 1, 1] [1, 2, 3]
        [0, 1, 2] [0, 1] [1, 1] 2 0) 0).length =
      min (rowCandidates [0, 2, 3] [0, 1, 1] [1, 2, 3] [0, 1, 2] [0, 1] [1, 1] 0 0).length
        2 :=
  (C1_row_is_top_ntop 2 2 2 [0, 2, 3] [0, 1, 1] [1, 2, 3] [0, 1, 2] [0, 1] [1, 1] 2 0
    (by decide) (by decide) 0 (by decide)).2.2.1

/-- C2 (amended): `minmax_ntop` as stored by the bookkeeping entry point
equals the maximum over all rows of the number of distinct columns
structurally touched during the row (the pre-threshold, pre-cap chain
length), not the post-threshold candidate count. -/
theorem C2_minmax_is_touched_width (n_row n_inner n_col : ℕ) (Ap Aj : List ℕ)
    (Ax : List ℚ) (Bp Bj : List ℕ) (Bx : List ℚ) (ntop : ℕ) (lb : ℚ)
    (hA : CSRok n_row n_inner Ap Aj) (hB : CSRok n_inner n_col Bp Bj) :
    (sparse_dot_plus_minmax_topn_source n_row n_col Ap Aj Ax Bp Bj Bx ntop lb).2 =
      (List.range n_row).foldl
        (fun m i => max ((rowEvents Ap Aj Ax Bp Bj Bx i).map Prod.fst).dedup.length m)
        0 := by
  unfold sparse_dot_plus_minmax_topn_source
  show (plusFold n_col Ap Aj Ax Bp Bj Bx ntop lb n_row).2 = _
  rw [plusFold_snd n_row n_inner n_col Ap Aj Ax Bp Bj Bx ntop lb hA hB n_row
    (le_refl n_row)]
  exact widthMax_eq_dedup Ap Aj Ax Bp Bj Bx n_row

/-- C2 witness at the reference scenario. -/
theorem C2_minmax_is_touched_width_witness :
    (sparse_dot_plus_minmax_topn_source 2 2 [0, 2, 3] [0, 1, 1] [1, 2, 3]
        [0, 1, 2] [0, 1] [1, 1] 2 0).2 =
      (List.range 2).foldl
        (fun m i => max ((rowEvents [0, 2, 3] [0, 1, 1] [1, 2, 3] [0, 1, 2] [0, 1]
          [1, 1] i).map Prod.fst).dedup.length m) 0 :=
  C2_minmax_is_touched_width 2 2 2 [0, 2, 3] [0, 1, 1] [1, 2, 3] [0, 1, 2] [0, 1]
    [1, 1] 2 0 (by decide) (by decide)

/-- C5: for every valid input and both CSR-writing entry points, the
values of every output row are non-increasing from first to last. -/
theorem C5_row_values_sorted (n_row n_inner n_col : ℕ) (Ap Aj : List ℕ) (Ax : List ℚ)
    (Bp Bj : List ℕ) (Bx : List ℚ) (ntop : ℕ) (lb : ℚ)
    (hA : CSRok n_row n_inner Ap Aj) (hB : CSRok n_inner n_col Bp Bj)
    (i : ℕ) (hi : i < n_row) :
    List.Sorted (· ≥ ·)
      (outRowValues (sparse_dot_topn_source n_row n_col Ap Aj Ax Bp Bj Bx ntop lb) i) ∧
    List.Sorted (· ≥ ·)
      (outRowValues
        (sparse_dot_plus_minmax_topn_source n_row n_col Ap Aj Ax Bp Bj Bx ntop lb).1 i) := by
  have h1 : List.Sorted (· ≥ ·)
      (outRowValues (sparse_dot_topn_source n_row n_col Ap Aj Ax Bp Bj Bx ntop lb) i) := by
    rw [outRowValues_eq n_row n_inner n_col Ap Aj Ax Bp Bj Bx ntop lb hA hB i hi]
    exact List.Pairwise.map candidate.value (fun a b h => h)
      (rowSelected_sorted Ap Aj Ax Bp Bj Bx ntop lb i)
  refine ⟨h1, ?_⟩
  rw [plus_output_eq]
  exact h1

/-- C5 witness at the reference scenario, row 0. -/
theorem C5_row_values_sorted_witness :
    List.Sorted (· ≥ ·)
      (outRowValues (sparse_dot_topn_source 2 2 [0, 2, 3] [0, 1, 1] [1, 2, 3]
        [0, 1, 2] [0, 1] [1, 1] 2 0) 0) :=
  (C5_row_values_sorted 2 2 2 [0, 2, 3] [0, 1, 1] [1, 2, 3] [0, 1, 2] [0, 1] [1, 1] 2 0
    (by decide) (by decide) 0 (by decide)).1

/-- C6: for every valid input, the row-pointer array has `n_row + 1`
entries, starts at `0`, is non-decreasing, each row gets at most `ntop`
entries, and the bookkeeping entry point writes the same array. -/
theorem C6_row_ptr_invariants (n_row n_inner n_col : ℕ) (Ap Aj : List ℕ) (Ax : List ℚ)
    (Bp Bj : List ℕ) (Bx : List ℚ) (ntop : ℕ) (lb : ℚ)
    (hA : CSRok n_row n_inner Ap Aj) (hB : CSRok n_inner n_col Bp Bj) :
    (sparse_dot_topn_source n_row n_col Ap Aj Ax Bp Bj Bx ntop lb).Cp.length = n_row + 1 ∧
    (sparse_dot_topn_source n_row n_col Ap Aj Ax Bp Bj Bx ntop lb).Cp.getD 0 0 = 0 ∧
    (∀ a b, a ≤ b → b ≤ n_row →
      (sparse_dot_topn_source n_row n_col Ap Aj Ax Bp Bj Bx ntop lb).Cp.getD a 0 ≤
        (sparse_dot_topn_source n_row n_col Ap Aj Ax Bp Bj Bx ntop lb).Cp.getD b 0) ∧
    (∀ i, i < n_row →
      (sparse_dot_topn_source n_row n_col Ap Aj Ax Bp Bj Bx ntop lb).Cp.getD (i+1) 0 -
        (sparse_dot_topn_source n_row n_col Ap Aj Ax Bp Bj Bx ntop lb).Cp.getD i 0 ≤ ntop) ∧
    (sparse_dot_plus_minmax_topn_source n_row n_col Ap Aj Ax Bp Bj Bx ntop lb).1.Cp =
      (sparse_dot_topn_source n_row n_col Ap Aj Ax Bp Bj Bx ntop lb).Cp := by
  obtain ⟨_, _, hout⟩ := topnFold_spec n_row n_inner n_col Ap Aj Ax Bp Bj Bx ntop lb hA hB
    n_row (le_refl n_row)
  have hCp : (sparse_dot_topn_source n_row n_col Ap Aj Ax Bp Bj Bx ntop lb).Cp =
      cpOf Ap Aj Ax Bp Bj Bx ntop lb n_row := by
    unfold sparse_dot_topn_source; rw [hout]
  refine ⟨?_, ?_, ?_, ?_, ?_⟩
  · rw [hCp]
    unfold cpOf
    rw [List.length_map, List.length_range]
  · rw [hCp, cpOf_getD Ap Aj Ax Bp Bj Bx ntop lb n_row 0 (Nat.zero_le _)]
    rfl
  · intro a b hab hb
    rw [hCp, cpOf_getD Ap Aj Ax Bp Bj Bx ntop lb n_row a (le_trans hab hb),
        cpOf_getD Ap Aj Ax Bp Bj Bx ntop lb n_row b hb]
    exact nnzUpTo_mono Ap Aj Ax Bp Bj Bx ntop lb a b hab
  · intro i hi
    rw [hCp, cpOf_getD Ap Aj Ax Bp Bj Bx ntop lb n_row (i+1) hi,
        cpOf_getD Ap Aj Ax Bp Bj Bx ntop lb n_row i (le_of_lt hi), nnzUpTo_succ]
    have := selLen_le Ap Aj Ax Bp Bj Bx ntop lb i
    omega
  · rw [plus_output_eq]

/-- C6 witness at the reference scenario. -/
theorem C6_row_ptr_invariants_witness :
    (sparse_dot_topn_source 2 2 [0, 2, 3] [0, 1, 1] [1, 2, 3]
      [0, 1, 2] [0, 1] [1, 1] 2 0).Cp.getD 0 0 = 0 :=
  (C6_row_ptr_invariants 2 2 2 [0, 2, 3] [0, 1, 1] [1, 2, 3] [0, 1, 2] [0, 1] [1, 1] 2 0
    (by decide) (by decide)).2.1

/-- C8: for every valid input, at the start of each row's processing and
after the last row (that is, after every prefix of `r ≤ n_row` rows) the
accumulator array is identically `0` and the chain array identically
`-1`, in both CSR-writing entry points. -/
theorem C8_scratch_clean (n_row n_inner n_col : ℕ) (Ap Aj : List ℕ) (Ax : List ℚ)
    (Bp Bj : List ℕ) (Bx : List ℚ) (ntop : ℕ) (lb : ℚ)
    (hA : CSRok n_row n_inner Ap Aj) (hB : CSRok n_inner n_col Bp Bj) :
    ∀ r, r ≤ n_row →
      ((topnFold n_col Ap Aj Ax Bp Bj Bx ntop lb r).1.sums = List.replicate n_col 0 ∧
       (topnFold n_col Ap Aj Ax Bp Bj Bx ntop lb r).1.next = List.replicate n_col (-1)) ∧
      ((plusFold n_col Ap Aj Ax Bp Bj Bx ntop lb r).1.1.sums = List.replicate n_col 0 ∧
       (plusFold n_col Ap Aj Ax Bp Bj Bx ntop lb r).1.1.next = List.replicate n_col (-1)) := by
  intro r hr
  obtain ⟨hs, hn, _⟩ := topnFold_spec n_row n_inner n_col Ap Aj Ax Bp Bj Bx ntop lb hA hB r hr
  refine ⟨⟨hs, hn⟩, ?_⟩
  rw [plusFold_fst]
  exact ⟨hs, hn⟩

/-- C8 witness: after both rows of the reference scenario, the
accumulator array is clean. -/
theorem C8_scratch_clean_witness :
    (topnFold 2 [0, 2, 3] [0, 1, 1] [1, 2, 3] [0, 1, 2] [0, 1] [1, 1] 2 0 2).1.sums =
      List.replicate 2 0 :=
  ((C8_scratch_clean 2 2 2 [0, 2, 3] [0, 1, 1] [1, 2, 3] [0, 1, 2] [0, 1] [1, 1] 2 0
    (by decide) (by decide)) 2 (by decide)).1.1

/-- C9 (amended): for every valid input, a column touched during row `i`
whose accumulated dot value is at or below the lower bound is still
visited and its scratch entries reset by the end of the row, but it never
appears in output row `i`.  (The literal claim's extra `exactly zero`
disjunct is dropped: with a negative bound a touched column accumulating
exactly zero is emitted, see the counterexample.) -/
theorem C9_below_bound_not_emitted (n_row n_inner n_col : ℕ) (Ap Aj : List ℕ)
    (Ax : List ℚ) (Bp Bj : List ℕ) (Bx : List ℚ) (ntop : ℕ) (lb : ℚ)
    (hA : CSRok n_row n_inner Ap Aj) (hB : CSRok n_inner n_col Bp Bj)
    (i : ℕ) (hi : i < n_row) (k : ℕ)
    (hk : k ∈ rowTouched Ap Aj Ax Bp Bj Bx i)
    (hdot : rowDot Ap Aj Ax Bp Bj Bx i k ≤ lb) :
    k ∉ (outRowPairs (sparse_dot_topn_source n_row n_col Ap Aj Ax Bp Bj Bx ntop lb) i).map
      Prod.fst ∧
    (topnFold n_col Ap Aj Ax Bp Bj Bx ntop lb (i+1)).1.sums.getD k 0 = 0 ∧
    (topnFold n_col Ap Aj Ax Bp Bj Bx ntop lb (i+1)).1.next.getD k 0 = -1 := by
  have hk_lt : k < n_col := by
    obtain ⟨e, he, rfl⟩ := (mem_touchedCols _ k).1 hk
    exact rowEvents_cols_lt n_row n_inner n_col Ap Aj Ax Bp Bj Bx hA hB i hi e he
  obtain ⟨hs, hn, _⟩ := topnFold_spec n_row n_inner n_col Ap Aj Ax Bp Bj Bx ntop lb hA hB
    (i+1) hi
  refine ⟨?_, ?_, ?_⟩
  · intro hmem
    rw [outRowPairs_eq n_row n_inner n_col Ap Aj Ax Bp Bj Bx ntop lb hA hB i hi,
        List.map_map] at hmem
    obtain ⟨c, hc, hck⟩ := List.mem_map.1 hmem
    have hcand := mem_selectTopn ntop _ c hc
    unfold rowCandidates at hcand
    obtain ⟨_, hlb, _⟩ := (mem_candsOf lb _ _ c).1 hcand
    have hck' : c.index = k := hck
    rw [hck'] at hlb
    exact absurd hdot (not_le.2 hlb)
  · rw [hs]
    exact getD_replicate n_col k 0 0 hk_lt
  · rw [hn]
    exact getD_replicate n_col k (-1) 0 hk_lt

/-- C9 witness: the touched column 0 of the counterexample input
accumulates exactly `0`; with bound `0` it is filtered out and reset. -/
theorem C9_below_bound_not_emitted_witness :
    0 ∉ (outRowPairs (sparse_dot_topn_source 1 1 [0, 2] [0, 1] [1, -1]
      [0, 1, 2] [0, 0] [1, 1] 1 0) 0).map Prod.fst :=
  (C9_below_bound_not_emitted 1 2 1 [0, 2] [0, 1] [1, -1] [0, 1, 2] [0, 0] [1, 1] 1 0
    (by decide) (by decide) 0 (by decide) 0 (by decide)
    (le_of_eq (by with_unfolding_all rfl))).1
